import Mathlib

/-!
Verification development for the editing core of the `odo` text editor
(grapheme-aware rows, per-row highlighting, modal command layer).

The Rust sources are shallowly embedded:
* a row's `String` is a `List Char` (Unicode scalar values, in order);
* `unicode_segmentation`'s extended grapheme clusters are modelled by
  `graphemes` below, restricted to the character repertoire this
  development exercises: a cluster is a base scalar followed by a maximal
  run of Combining Diacritical Marks (U+0300..U+036F), with the CRLF rule
  (no break between a carriage return and a line feed).  This agrees with
  UAX #29 on every string built from ASCII characters and those marks,
  which covers all concrete inputs appearing in the theorems;
* byte positions inside a string (Rust `str::find`, `grapheme_indices`)
  are modelled as code-point positions; the two indexings are
  order-isomorphic and the source only compares such positions for
  equality, so the translation is faithful.  Where a genuinely byte-based
  quantity matters (Rust `String::len`, `truncate`, slicing) the model
  uses `utf8Len` / `Char.utf8Size` explicitly;
* Rust panics (out-of-bounds `Vec` indexing, slicing off a char
  boundary) are modelled by `Option`, `none` meaning the call panics.
-/

namespace Odo

/-- Whether a scalar is a Combining Diacritical Mark (U+0300..U+036F);
these carry the `Extend` grapheme-break property. -/
def isExtend (c : Char) : Bool := 0x300 ≤ c.toNat ∧ c.toNat ≤ 0x36F

/-- Fueled worker for `graphemes`; the fuel is structurally consumed so
that the function reduces inside the kernel.  `graphemes` always supplies
enough fuel (the string length). -/
def graphemesF : Nat → List Char → List (List Char)
  | 0, _ => []
  | _ + 1, [] => []
  | fuel + 1, c :: rest =>
    if c = '\r' then
      if rest.head? = some '\n' then ['\r', '\n'] :: graphemesF fuel rest.tail
      else ['\r'] :: graphemesF fuel rest
    else
      (c :: rest.takeWhile isExtend) :: graphemesF fuel (rest.dropWhile isExtend)

/-- Extended grapheme cluster segmentation (model of
`unicode_segmentation::UnicodeSegmentation::graphemes(true)`; see the
header comment for the modelled repertoire). -/
def graphemes (s : List Char) : List (List Char) := graphemesF s.length s

/-- UTF-8 byte length of a scalar sequence (Rust `String::len`). -/
def utf8Len (s : List Char) : Nat := (s.map Char.utf8Size).sum

/-- The scalar sequence of a string literal. -/
def cs (s : String) : List Char := s.data

/-- An ASCII scalar other than carriage return.  Text drawn entirely from
this set cannot have grapheme clusters merged by any edit: ASCII contains
no scalar with the Extend, ZWJ, SpacingMark, Prepend, Regional_Indicator
or Hangul-jamo grapheme-break properties, so under full UAX #29 — in the
real `unicode_segmentation` library just as in the `graphemes` model
here — every boundary between two such scalars is a cluster break (CR,
the one ASCII scalar that does merge, with a following LF, is
excluded). -/
def plainChar (c : Char) : Bool := c.toNat < 128 && c ≠ '\r'

/-- Model of `highlighting::Type` (src/core/highlighting.rs). -/
inductive HlType where
  | None
  | Number
  | Match
  | String
  | Character
  | Comment
  | MultilineComment
  | PrimaryKeywords
  | SecondaryKeywords
  | OrgHeadline
  | OrgTodo
  | OrgDone
  | OrgTag
  | OrgList
  | OrgBold
  | OrgItalic
  | OrgUnderline
  | OrgLink
  | OrgCodeBlock
deriving DecidableEq

/-- Modelled from the spec: `SearchDirection` (src/core/search.rs is not in
the source tree; §4.1 describes Forward scanning `[at, length)` and
Backward scanning `[0, at)`). -/
inductive SearchDirection where
  | Forward
  | Backward
deriving DecidableEq

/-- Modelled from the spec: `FileType` (src/core/filetype.rs is not in the
source tree; §3 says the file type is derived from the file name and
drives the highlighting ruleset).  Only its `is_org` query is observable
in the embedded code. -/
structure FileType where
  is_org : Bool
deriving DecidableEq

/-- Modelled from the spec: `HighlightingOptions` (src/core/filetype.rs is
not in the source tree).  The embedded portion of `Row::highlight` never
inspects it (the generic-ruleset body is stubbed in the source), so it is
an empty structure here. -/
structure HighlightingOptions where
deriving DecidableEq

/-- Model of `Row` (src/core/row.rs). -/
structure Row where
  string : List Char
  highlighting : List HlType
  is_highlighted : Bool
  len : Nat
deriving DecidableEq

/-- Model of `impl From<&str> for Row`. -/
def Row.fromStr (s : List Char) : Row :=
  { string := s, highlighting := [], is_highlighted := false,
    len := (graphemes s).length }

/-- The grapheme loop of `Row::insert` (builds the new string and recounts
the length, inserting `c` before grapheme index `at_`). -/
def insertLoop (at_ : Nat) (c : Char) : Nat → List (List Char) → List Char × Nat
  | _, [] => ([], 0)
  | idx, g :: gs =>
    let rest := insertLoop at_ c (idx + 1) gs
    if idx = at_ then (c :: (g ++ rest.1), rest.2 + 2)
    else (g ++ rest.1, rest.2 + 1)

/-- Model of `Row::insert`. -/
def Row.insert (r : Row) (at_ : Nat) (c : Char) : Row :=
  if r.len ≤ at_ then { r with string := r.string ++ [c], len := r.len + 1 }
  else
    let p := insertLoop at_ c 0 (graphemes r.string)
    { r with string := p.1, len := p.2 }

/-- The grapheme loop of `Row::delete` (drops the grapheme at `at_` and
recounts the length). -/
def deleteLoop (at_ : Nat) : Nat → List (List Char) → List Char × Nat
  | _, [] => ([], 0)
  | idx, g :: gs =>
    let rest := deleteLoop at_ (idx + 1) gs
    if idx = at_ then rest
    else (g ++ rest.1, rest.2 + 1)

/-- Model of `Row::delete`. -/
def Row.delete (r : Row) (at_ : Nat) : Row :=
  if r.len ≤ at_ then r
  else
    let p := deleteLoop at_ 0 (graphemes r.string)
    { r with string := p.1, len := p.2 }

/-- Model of `Row::append`. -/
def Row.append (r other : Row) : Row :=
  { r with string := r.string ++ other.string, len := r.len + other.len }

/-- The grapheme loop of `Row::split` (graphemes before `at_` to the left
part, the rest to the right part, both recounted). -/
def splitLoop (at_ : Nat) :
    Nat → List (List Char) → (List Char × Nat) × (List Char × Nat)
  | _, [] => (([], 0), ([], 0))
  | idx, g :: gs =>
    let rest := splitLoop at_ (idx + 1) gs
    if idx < at_ then ((g ++ rest.1.1, rest.1.2 + 1), rest.2)
    else (rest.1, (g ++ rest.2.1, rest.2.2 + 1))

/-- Model of `Row::split`: first component is the truncated receiver,
second the returned row (fresh highlighting state). -/
def Row.split (r : Row) (at_ : Nat) : Row × Row :=
  let p := splitLoop at_ 0 (graphemes r.string)
  ({ r with string := p.1.1, len := p.1.2, is_highlighted := false },
   { string := p.2.1, highlighting := [], is_highlighted := false,
     len := p.2.2 })

/-- One Row mutation, for stating properties of operation sequences.
`splitLeft`/`splitRight` keep the truncated receiver resp. the returned
row of `Row::split`. -/
inductive RowOp where
  | insert (at_ : Nat) (c : Char)
  | delete (at_ : Nat)
  | splitLeft (at_ : Nat)
  | splitRight (at_ : Nat)
  | append (other : Row)
deriving DecidableEq

def applyOp (r : Row) : RowOp → Row
  | .insert a c => r.insert a c
  | .delete a => r.delete a
  | .splitLeft a => (r.split a).1
  | .splitRight a => (r.split a).2
  | .append o => r.append o

def applyOps (r : Row) (ops : List RowOp) : Row := ops.foldl applyOp r

/-- A row whose characters are plain (ASCII other than CR, `plainChar`)
and whose cached length is accurate. -/
def wfRow (r : Row) : Bool :=
  r.string.all plainChar && r.len == r.string.length

/-- An operation whose character payload cannot merge grapheme clusters:
inserted characters are plain (ASCII other than CR), appended rows are
plain with an accurate cached length. -/
def opPlain : RowOp → Bool
  | .insert _ c => plainChar c
  | .append o => wfRow o
  | _ => true

/-- Boolean prefix test on scalar sequences (Rust `str::starts_with`). -/
def isPrefixCB : List Char → List Char → Bool
  | [], _ => true
  | _ :: _, [] => false
  | a :: as, b :: bs => a = b && isPrefixCB as bs

/-- Model of `str::find` for a literal pattern: position (in scalars; see
the header comment on byte-position modelling) of the first occurrence. -/
def strFind (q : List Char) : List Char → Option Nat
  | [] => if isPrefixCB q [] then some 0 else none
  | c :: t =>
    if isPrefixCB q (c :: t) then some 0
    else (strFind q t).map (· + 1)

/-- Model of `str::rfind` for a literal pattern: position of the last
occurrence. -/
def strRFind (q : List Char) : List Char → Option Nat
  | [] => if isPrefixCB q [] then some 0 else none
  | c :: t =>
    match strRFind q t with
    | some b => some (b + 1)
    | none => if isPrefixCB q (c :: t) then some 0 else none

/-- The `grapheme_indices` scan at the end of `Row::find`: the first
grapheme index whose starting offset equals the match offset. -/
def clusterIndexLoop (b : Nat) : Nat → Nat → List (List Char) → Option Nat
  | _, _, [] => none
  | gi, off, g :: gs =>
    if off = b then some gi
    else clusterIndexLoop b (gi + 1) (off + g.length) gs

/-- Core of `Row::find`, on the row's string and cached length. -/
def findCore (s : List Char) (len : Nat) (query : List Char) (at_ : Nat)
    (direction : SearchDirection) : Option Nat :=
  if len < at_ ∨ query = [] then none
  else
    let start := if direction = .Forward then at_ else 0
    let e := if direction = .Forward then len else at_
    let sub := (((graphemes s).drop start).take (e - start)).flatten
    let mbi :=
      if direction = .Forward then strFind query sub else strRFind query sub
    match mbi with
    | none => none
    | some b =>
      match clusterIndexLoop b 0 0 (graphemes sub) with
      | none => none
      | some gi => some (start + gi)

/-- Model of `Row::find`. -/
def Row.find (r : Row) (query : List Char) (at_ : Nat)
    (direction : SearchDirection) : Option Nat :=
  findCore r.string r.len query at_ direction

/-- `for i in search_match..next_index { highlighting[i] = Match }`,
given that every index is in bounds. -/
def markLoop : List HlType → Nat → Nat → List HlType
  | hl, _, 0 => hl
  | hl, i, fuel + 1 => markLoop (hl.set i HlType.Match) (i + 1) fuel

/-- The body of the marking loop, with the out-of-bounds panic made
explicit: `Vec` indexing panics as soon as some `i` in `[a, b)` reaches
`highlighting.len()`. -/
def setMatchRange (hl : List HlType) (a b : Nat) : Option (List HlType) :=
  if a < b ∧ hl.length < b then none else some (markLoop hl a (b - a))

/-- The `while let Some(search_match) = self.find(..)` loop of
`Row::highlight_match`.  The fuel is structural so the function reduces in
the kernel; `highlightMatch` supplies `len + 1`, which the find guard
(`at > len` returns `None`) makes sufficient since the search index grows
strictly. -/
def hmGoF : Nat → List Char → Nat → List Char → List HlType → Nat →
    Option (List HlType)
  | 0, _, _, _, _, _ => none
  | fuel + 1, s, len, w, hl, index =>
    match findCore s len w index .Forward with
    | none => some hl
    | some m =>
      let next := m + (graphemes w).length
      match setMatchRange hl m next with
      | none => none
      | some hl₂ => hmGoF fuel s len w hl₂ next

/-- Model of `Row::highlight_match` acting on a highlighting vector
(`none` = the out-of-bounds panic).  `checked_add` overflow cannot occur
over `Nat` and is not modelled. -/
def highlightMatch (s : List Char) (len : Nat) (word : Option (List Char))
    (hl : List HlType) : Option (List HlType) :=
  match word with
  | none => some hl
  | some w => if w = [] then some hl else hmGoF (len + 1) s len w hl 0

/-- Rust `char::is_whitespace` (the White_Space property). -/
def isRustWhitespace (c : Char) : Bool :=
  c.toNat = 0x20 ∨ (0x09 ≤ c.toNat ∧ c.toNat ≤ 0x0D) ∨ c.toNat = 0x85 ∨
  c.toNat = 0xA0 ∨ c.toNat = 0x1680 ∨
  (0x2000 ≤ c.toNat ∧ c.toNat ≤ 0x200A) ∨ c.toNat = 0x2028 ∨
  c.toNat = 0x2029 ∨ c.toNat = 0x202F ∨ c.toNat = 0x205F ∨ c.toNat = 0x3000

/-- First index `j` in a half-open scan range with a given property
(`for j in from..stop { if test(j) { .. break } }`); the fuel is the
range width. -/
def findFromLoop (test : Nat → Bool) : Nat → Nat → Option Nat
  | _, 0 => none
  | j, fuel + 1 => if test j then some j else findFromLoop test (j + 1) fuel

/-- One iteration of the inline-styling pass of
`OrgHighlighter::highlight_line` (bold/italic/underline markers and
`[[..]]` links), mutating `res` at position `i`. -/
def styleStep (chars : List Char) (res : List HlType) (i : Nat) : List HlType :=
  if i + 1 < chars.length then
    let ci := chars.getD i ' '
    let ci1 := chars.getD (i + 1) ' '
    if ci = '*' ∧ ci1 ≠ ' ' then
      let res₂ := res.set i HlType.OrgBold
      match findFromLoop (fun j => chars.getD j ' ' = '*') (i + 1)
          (chars.length - (i + 1)) with
      | some j => res₂.set j HlType.OrgBold
      | none => res₂
    else if ci = '/' ∧ ci1 ≠ ' ' then
      let res₂ := res.set i HlType.OrgItalic
      match findFromLoop (fun j => chars.getD j ' ' = '/') (i + 1)
          (chars.length - (i + 1)) with
      | some j => res₂.set j HlType.OrgItalic
      | none => res₂
    else if ci = '_' ∧ ci1 ≠ ' ' then
      let res₂ := res.set i HlType.OrgUnderline
      match findFromLoop (fun j => chars.getD j ' ' = '_') (i + 1)
          (chars.length - (i + 1)) with
      | some j => res₂.set j HlType.OrgUnderline
      | none => res₂
    else if ci = '[' ∧ ci1 = '[' then
      let res₂ := (res.set i HlType.OrgLink).set (i + 1) HlType.OrgLink
      match findFromLoop
          (fun j => chars.getD j ' ' = ']' ∧ chars.getD (j + 1) ' ' = ']')
          (i + 2) ((chars.length - 1) - (i + 2)) with
      | some j => (res₂.set j HlType.OrgLink).set (j + 1) HlType.OrgLink
      | none => res₂
    else res
  else res

/-- The `while i < chars.len()` driver of the inline-styling pass. -/
def styleLoop (chars : List Char) : List HlType → Nat → Nat → List HlType
  | res, _, 0 => res
  | res, i, fuel + 1 =>
    if i < chars.length then styleLoop chars (styleStep chars res i) (i + 1) fuel
    else res

/-- Model of `OrgHighlighter::highlight_line` (src/core/row.rs).  The
`&line[level..]` byte slice is `drop level` here because the skipped
characters are ASCII asterisks. -/
def orgHighlightLine (line : List Char) : List HlType :=
  if line.head? = some '*' then
    let level := (line.takeWhile (· = '*')).length
    let stars : List HlType := List.replicate level HlType.OrgHeadline
    if level < line.length then
      let trimmed := (line.drop level).dropWhile isRustWhitespace
      if isPrefixCB (cs "TODO ") trimmed then
        stars ++ List.replicate 5 HlType.OrgTodo ++
          List.replicate (line.length - level - 5) HlType.OrgHeadline
      else if isPrefixCB (cs "DONE ") trimmed then
        stars ++ List.replicate 5 HlType.OrgDone ++
          List.replicate (line.length - level - 5) HlType.OrgHeadline
      else stars ++ List.replicate (line.length - level) HlType.OrgHeadline
    else stars
  else if isPrefixCB (cs "- ") line ∨ isPrefixCB (cs "+ ") line ∨
      isPrefixCB (cs "* ") line then
    HlType.OrgList :: HlType.OrgList ::
      List.replicate (line.length - 2) HlType.None
  else if (strFind (cs "::") line).isSome then
    line.map (fun c => if c = ':' then HlType.OrgTag else HlType.None)
  else
    styleLoop line (List.replicate line.length HlType.None) 0 line.length

/-- Model of `Row::highlight_org`.  `lockOk` is the outcome of acquiring
the process-wide highlighter mutex (always true in a single-threaded,
panic-free run); on failure the source substitutes
`vec![Type::None; self.string.len()]`, a byte-length vector. -/
def Row.highlightOrg (r : Row) (lockOk : Bool) (word : Option (List Char)) :
    Option (Row × Bool) :=
  let base :=
    if lockOk then orgHighlightLine r.string
    else List.replicate (utf8Len r.string) HlType.None
  match highlightMatch r.string r.len word base with
  | none => none
  | some hl =>
    some ({ r with highlighting := hl, is_highlighted := true }, false)

/-- Model of the byte comparison
`self.string[self.string.len() - 2..] == *"*/"` (caller guarantees byte
length > 1).  `none`: byte position `len - 2` is not a char boundary, so
the slice panics. -/
def lastTwoBytesEqStarSlash (s : List Char) : Option Bool :=
  match s.reverse with
  | [] => some false
  | c :: rest =>
    if c.utf8Size = 1 then
      match rest with
      | [] => some false
      | b :: _ =>
        if b.utf8Size = 1 then some (b = '*' ∧ c = '/') else none
    else if c.utf8Size = 2 then some false
    else none

/-- Model of
`&self.string[self.string.len().saturating_sub(2)..] != "*/"`. -/
def lastTwoBytesNeStarSlashSat (s : List Char) : Option Bool :=
  if utf8Len s ≤ 2 then some (s ≠ ['*', '/'])
  else
    match lastTwoBytesEqStarSlash s with
    | none => none
    | some b => some (!b)

/-- Byte offset of the first `"*/"` occurrence (`self.string.find("*/")`),
the scalar position converted to its byte offset. -/
def starSlashByteIdx (s : List Char) : Option Nat :=
  (strFind (cs "*/") s).map (fun p => utf8Len (s.take p))

/-- Model of `Row::highlight`.  The generic (non-markup) ruleset's base
classification is a stub in the source (`// Add basic existing highlight
logic here...`), so outside the carried multiline comment the base vector
stays empty.  `none` = the call panics. -/
def Row.highlight (r : Row) (_opts : HighlightingOptions)
    (word : Option (List Char)) (start_with_comment : Bool)
    (file_type : FileType) (lockOk : Bool) : Option (Row × Bool) :=
  if file_type.is_org then r.highlightOrg lockOk word
  else
    if r.is_highlighted ∧ word = none then
      if r.highlighting.getLast? = some HlType.MultilineComment ∧
          1 < utf8Len r.string then
        match lastTwoBytesEqStarSlash r.string with
        | none => none
        | some true => some (r, true)
        | some false => some (r, false)
      else some (r, false)
    else
      let base : List HlType :=
        if start_with_comment then
          match starSlashByteIdx r.string with
          | some bi => List.replicate (bi + 2) HlType.MultilineComment
          | none => List.replicate r.string.length HlType.MultilineComment
        else []
      match highlightMatch r.string r.len word base with
      | none => none
      | some hl =>
        if start_with_comment then
          match lastTwoBytesNeStarSlashSat r.string with
          | none => none
          | some true => some ({ r with highlighting := hl }, true)
          | some false =>
            some ({ r with highlighting := hl, is_highlighted := true },
              false)
        else
          some ({ r with highlighting := hl, is_highlighted := true }, false)

/-- The classification `Row::render` uses at a grapheme index:
`highlighting.get(index).unwrap_or(&Type::None)`. -/
def Row.renderCategory (r : Row) (index : Nat) : HlType :=
  r.highlighting.getD index HlType.None

/-- Model of `Row::render` as the sequence of (category, character) pairs
it emits (the escape-sequence formatting that surrounds category
transitions is presentation and not modelled).  The `start`/`end` clamp
uses the byte length, as in the source. -/
def Row.renderPairs (r : Row) (start e : Nat) : List (HlType × Char) :=
  let e₂ := min e (utf8Len r.string)
  let s₂ := min start e₂
  (((graphemes r.string).enum.drop s₂).take (e₂ - s₂)).filterMap
    (fun p =>
      match p.2.head? with
      | some c => some (r.renderCategory p.1, if c = '\t' then ' ' else c)
      | none => none)

/-- Model of `editor::Mode` (src/editor/mode.rs). -/
inductive Mode where
  | Normal
  | Insert
  | Visual
  | VisualLine
  | Command
deriving DecidableEq

/-- Modelled from the spec: `Position` (src/core/position.rs is not in the
source tree; §3: `{x: grapheme column, y: row index}`). -/
structure Position where
  x : Nat
  y : Nat
deriving DecidableEq

/-- Model of `CommandState` (src/editor/command.rs). -/
structure CommandState where
  buffer : List Char
  operator_pending : Bool
  current_operator : Option Char
  count : Option Nat
  start_position : Option Position
deriving DecidableEq

def CommandState.new : CommandState :=
  { buffer := [], operator_pending := false, current_operator := none,
    count := none, start_position := none }

def CommandState.clear (_st : CommandState) : CommandState := CommandState.new

def CommandState.is_operator_pending (st : CommandState) : Bool :=
  st.operator_pending

def CommandState.set_operator_pending (st : CommandState) (op : Char) :
    CommandState :=
  { st with operator_pending := true, current_operator := some op }

/-- Model of `CommandState::parse_count` (its boolean result is ignored by
the caller and not modelled). -/
def CommandState.parse_count (st : CommandState) (c : Char) : CommandState :=
  if c.isDigit then
    if c = '0' ∧ st.count = none then { st with count := some 0 }
    else { st with count := some (st.count.getD 0 * 10 + (c.toNat - 48)) }
  else st

def CommandState.get_count (st : CommandState) : Nat := st.count.getD 1

def CommandState.has_count (st : CommandState) : Bool := st.count.isSome

def QUIT_TIMES : Nat := 3

/-- Model of the `TerminalEditor` state that the embedded keypress logic
reads or writes.  `dirty` stands for `Document::is_dirty()` (document.rs
is not in the source tree; §3: `dirty` is set on any mutation, cleared on
successful save); the status message, document rows, offset and terminal
are not modelled. -/
structure TerminalEditor where
  should_quit : Bool
  cursor_position : Position
  dirty : Bool
  quit_times : Nat
  mode : Mode
  command_state : CommandState
  selection_start : Option Position
deriving DecidableEq

/-- Model of `TerminalEditor::enter_visual_mode`. -/
def enter_visual_mode (e : TerminalEditor) : TerminalEditor :=
  { e with
    mode := Mode.Visual,
    selection_start := some e.cursor_position,
    command_state := e.command_state.clear }

/-- Model of `TerminalEditor::enter_visual_line_mode`. -/
def enter_visual_line_mode (e : TerminalEditor) : TerminalEditor :=
  { e with
    mode := Mode.VisualLine,
    selection_start := some { x := 0, y := e.cursor_position.y },
    command_state := e.command_state.clear }

/-- Keys for the quit-path model: Ctrl-Q, or a Normal-mode character key. -/
inductive EKey where
  | ctrlQ
  | charKey (c : Char)
deriving DecidableEq

/-- Model of `process_keypress` restricted to Normal mode and to keys that
are Ctrl-Q, count digits, or characters with no dedicated Normal-mode arm
(those fall to the wildcard arm).  Ctrl-Q and accepted count digits return
early, skipping the trailing `quit_times` reset; wildcard keys fall
through to it. -/
def process_keypress_normal (e : TerminalEditor) : EKey → TerminalEditor
  | EKey.ctrlQ =>
    if 0 < e.quit_times ∧ e.dirty then
      { e with quit_times := e.quit_times - 1 }
    else { e with should_quit := true }
  | EKey.charKey c =>
    if c.isDigit ∧ (c ≠ '0' ∨ e.command_state.has_count) then
      { e with command_state := e.command_state.parse_count c }
    else
      let e₂ :=
        if e.command_state.is_operator_pending then
          { e with command_state := e.command_state.clear }
        else e
      if e₂.quit_times < QUIT_TIMES then { e₂ with quit_times := QUIT_TIMES }
      else e₂

def process_keys (e : TerminalEditor) (ks : List EKey) : TerminalEditor :=
  ks.foldl process_keypress_normal e

/-- Rust `char::is_control` (the Cc general category). -/
def isRustControl (c : Char) : Bool :=
  c.toNat < 0x20 ∨ (0x7F ≤ c.toNat ∧ c.toNat ≤ 0x9F)

/-- Keys consumed by `prompt` (`Key::Char('\n')` is `charKey '\n'`;
`other` covers every key hitting the final wildcard arm). -/
inductive PKey where
  | backspace
  | charKey (c : Char)
  | esc
  | other
deriving DecidableEq

/-- Result of running `prompt`'s input loop against a key sequence. -/
inductive PromptOutcome where
  | ret (r : Option (List Char))
  | panicked
  | pending (acc : List Char)
deriving DecidableEq

/-- Model of the input loop of `TerminalEditor::prompt`.  `result` is a
byte-backed `String`; `truncate(len - 1)` removes the final byte, which
removes the last character when it is one byte wide and panics (off a char
boundary) otherwise.  The per-key callback only receives `&String` and
cannot change `result`, so it is not modelled. -/
def promptLoop (acc : List Char) : List PKey → PromptOutcome
  | [] => PromptOutcome.pending acc
  | k :: ks =>
    match k with
    | PKey.backspace =>
      match acc.getLast? with
      | none => promptLoop acc ks
      | some c =>
        if c.utf8Size = 1 then promptLoop acc.dropLast ks
        else PromptOutcome.panicked
    | PKey.charKey c =>
      if c = '\n' then
        PromptOutcome.ret (if acc = [] then none else some acc)
      else if isRustControl c then promptLoop acc ks
      else promptLoop (acc ++ [c]) ks
    | PKey.esc => PromptOutcome.ret none
    | PKey.other => promptLoop acc ks

theorem length_dropWhile_le (p : Char → Bool) (l : List Char) :
    (l.dropWhile p).length ≤ l.length := by
  induction l with
  | nil => simp [List.dropWhile]
  | cons a t ih =>
    simp only [List.dropWhile]
    cases p a
    · simp
    · simp
      omega

theorem graphemesF_nil (fuel : Nat) : graphemesF fuel [] = [] := by
  cases fuel <;> rfl

theorem graphemesF_succ (fuel : Nat) (c : Char) (rest : List Char) :
    graphemesF (fuel + 1) (c :: rest) =
      if c = '\r' then
        if rest.head? = some '\n' then ['\r', '\n'] :: graphemesF fuel rest.tail
        else ['\r'] :: graphemesF fuel rest
      else
        (c :: rest.takeWhile isExtend) ::
          graphemesF fuel (rest.dropWhile isExtend) := rfl

theorem graphemesF_congr :
    ∀ (n fuel₁ fuel₂ : Nat) (s : List Char), s.length ≤ n →
      s.length ≤ fuel₁ → s.length ≤ fuel₂ →
      graphemesF fuel₁ s = graphemesF fuel₂ s := by
  intro n
  induction n with
  | zero =>
    intro f₁ f₂ s h _ _
    cases s with
    | nil => rw [graphemesF_nil, graphemesF_nil]
    | cons a t => simp at h
  | succ n ih =>
    intro f₁ f₂ s hn h₁ h₂
    cases s with
    | nil => rw [graphemesF_nil, graphemesF_nil]
    | cons c rest =>
      simp only [List.length_cons] at hn h₁ h₂
      obtain ⟨g₁, rfl⟩ : ∃ g, f₁ = g + 1 := ⟨f₁ - 1, by omega⟩
      obtain ⟨g₂, rfl⟩ : ∃ g, f₂ = g + 1 := ⟨f₂ - 1, by omega⟩
      rw [graphemesF_succ, graphemesF_succ]
      by_cases hc : c = '\r'
      · rw [if_pos hc, if_pos hc]
        by_cases hh : rest.head? = some '\n'
        · rw [if_pos hh, if_pos hh]
          have ht : rest.tail.length ≤ rest.length := by
            cases rest <;> simp
          rw [ih g₁ g₂ rest.tail (by omega) (by omega) (by omega)]
        · rw [if_neg hh, if_neg hh]
          rw [ih g₁ g₂ rest (by omega) (by omega) (by omega)]
      · rw [if_neg hc, if_neg hc]
        have hd := length_dropWhile_le isExtend rest
        rw [ih g₁ g₂ (rest.dropWhile isExtend) (by omega) (by omega) (by omega)]

theorem graphemes_nil : graphemes [] = [] := rfl

theorem graphemes_cons_cr_lf (rest₂ : List Char) :
    graphemes ('\r' :: '\n' :: rest₂) = ['\r', '\n'] :: graphemes rest₂ := by
  show graphemesF (rest₂.length + 1 + 1) _ = _
  rw [graphemesF_succ, if_pos rfl]
  simp only [List.head?_cons, List.tail_cons, if_pos rfl]
  show _ :: graphemesF (rest₂.length + 1) rest₂ = _
  rw [graphemesF_congr rest₂.length (rest₂.length + 1) rest₂.length rest₂ le_rfl
    (by omega) le_rfl]
  rfl

theorem graphemes_cons_cr (rest : List Char) (h : rest.head? ≠ some '\n') :
    graphemes ('\r' :: rest) = ['\r'] :: graphemes rest := by
  show graphemesF (rest.length + 1) _ = _
  rw [graphemesF_succ, if_pos rfl, if_neg h]
  rw [graphemesF_congr rest.length (rest.length) rest.length rest le_rfl
    le_rfl le_rfl]
  rfl

theorem graphemes_cons (c : Char) (rest : List Char) (h : c ≠ '\r') :
    graphemes (c :: rest) =
      (c :: rest.takeWhile isExtend) :: graphemes (rest.dropWhile isExtend) := by
  show graphemesF (rest.length + 1) _ = _
  rw [graphemesF_succ, if_neg h]
  rw [graphemesF_congr rest.length rest.length
    (rest.dropWhile isExtend).length (rest.dropWhile isExtend)
    (length_dropWhile_le _ _) (length_dropWhile_le _ _) le_rfl]
  rfl

/-- Custom induction principle following the recursion of `graphemes`. -/
theorem graphemes_ind (motive : List Char → Prop) (h1 : motive [])
    (h2 : ∀ rest₂, motive rest₂ → motive ('\r' :: '\n' :: rest₂))
    (h3 : ∀ rest, rest.head? ≠ some '\n' → motive rest → motive ('\r' :: rest))
    (h4 : ∀ c rest, c ≠ '\r' →
      motive (rest.dropWhile isExtend) → motive (c :: rest)) :
    ∀ s, motive s := by
  have key : ∀ n (s : List Char), s.length ≤ n → motive s := by
    intro n
    induction n with
    | zero =>
      intro s hs
      cases s with
      | nil => exact h1
      | cons a t => simp at hs
    | succ n ih =>
      intro s hs
      match s with
      | [] => exact h1
      | c :: rest =>
        by_cases hc : c = '\r'
        · subst hc
          cases rest with
          | nil => exact h3 [] (by simp) h1
          | cons a t =>
            by_cases ha : a = '\n'
            · subst ha
              exact h2 t (ih t (by simp at hs; omega))
            · refine h3 (a :: t) (by simp [ha]) (ih _ ?_)
              simp only [List.length_cons] at hs ⊢
              omega
        · refine h4 c rest hc (ih _ ?_)
          have := length_dropWhile_le isExtend rest
          simp at hs
          omega
  intro s
  exact key s.length s le_rfl

theorem graphemes_flatten : ∀ s : List Char, (graphemes s).flatten = s := by
  intro s
  induction s using graphemes_ind with
  | h1 => simp [graphemes_nil]
  | h2 rest₂ ih => simp [graphemes_cons_cr_lf, ih]
  | h3 rest h ih => simp [graphemes_cons_cr rest h, ih]
  | h4 c rest hc ih =>
    simp [graphemes_cons c rest hc, ih, List.takeWhile_append_dropWhile]

theorem flatten_take_isPref {α : Type} (l : List (List α)) (n : Nat) :
    (l.take n).flatten <+: l.flatten := by
  refine ⟨(l.drop n).flatten, ?_⟩
  rw [← List.flatten_append, List.take_append_drop]

theorem head?_of_isPref {α : Type} {u v : List α} (h : u <+: v) (hu : u ≠ []) :
    u.head? = v.head? := by
  obtain ⟨w, rfl⟩ := h
  cases u with
  | nil => exact absurd rfl hu
  | cons a t => simp

theorem takeWhile_append_eq (p : Char → Bool) (l₁ l₂ : List Char)
    (h : ∀ x ∈ l₁, p x = true) (h₂ : ∀ c, l₂.head? = some c → p c = false) :
    (l₁ ++ l₂).takeWhile p = l₁ ∧ (l₁ ++ l₂).dropWhile p = l₂ := by
  induction l₁ with
  | nil =>
    simp only [List.nil_append]
    cases l₂ with
    | nil => simp [List.takeWhile, List.dropWhile]
    | cons c t =>
      have := h₂ c (by simp)
      simp [List.takeWhile, List.dropWhile, this]
  | cons a t ih =>
    have ha : p a = true := h a (by simp)
    have iht := ih (fun x hx => h x (by simp [hx]))
    simp [List.takeWhile, List.dropWhile, ha, iht.1, iht.2]

theorem graphemes_slice :
    ∀ (s : List Char) (k n : Nat),
      graphemes ((((graphemes s).drop k).take n).flatten) =
        ((graphemes s).drop k).take n := by
  intro s
  induction s using graphemes_ind with
  | h1 =>
    intro k n
    simp [graphemes_nil]
  | h2 rest₂ ih =>
    intro k n
    rw [graphemes_cons_cr_lf]
    match k with
    | kk + 1 => simpa using ih kk n
    | 0 =>
      match n with
      | 0 => simp [graphemes_nil]
      | nn + 1 =>
        simp only [List.drop_zero, List.take_succ_cons, List.flatten_cons]
        have hu := ih 0 nn
        simp only [List.drop_zero] at hu
        rw [List.cons_append, List.cons_append, List.nil_append,
          graphemes_cons_cr_lf, hu]
  | h3 rest h ih =>
    intro k n
    rw [graphemes_cons_cr rest h]
    match k with
    | kk + 1 => simpa using ih kk n
    | 0 =>
      match n with
      | 0 => simp [graphemes_nil]
      | nn + 1 =>
        simp only [List.drop_zero, List.take_succ_cons, List.flatten_cons]
        have hu := ih 0 nn
        simp only [List.drop_zero] at hu
        have hpref : ((graphemes rest).take nn).flatten <+: rest := by
          have := flatten_take_isPref (graphemes rest) nn
          rwa [graphemes_flatten] at this
        have hhd : (((graphemes rest).take nn).flatten).head? ≠ some '\n' := by
          by_cases hnil : ((graphemes rest).take nn).flatten = []
          · simp [hnil]
          · rw [head?_of_isPref hpref hnil]
            exact h
        rw [List.cons_append, List.nil_append, graphemes_cons_cr _ hhd, hu]
  | h4 c rest hc ih =>
    intro k n
    rw [graphemes_cons c rest hc]
    match k with
    | kk + 1 => simpa using ih kk n
    | 0 =>
      match n with
      | 0 => simp [graphemes_nil]
      | nn + 1 =>
        simp only [List.drop_zero, List.take_succ_cons, List.flatten_cons]
        have hu := ih 0 nn
        simp only [List.drop_zero] at hu
        have hpref :
            ((graphemes (rest.dropWhile isExtend)).take nn).flatten <+:
              rest.dropWhile isExtend := by
          have := flatten_take_isPref (graphemes (rest.dropWhile isExtend)) nn
          rwa [graphemes_flatten] at this
        have hnotext :
            ∀ d, (((graphemes (rest.dropWhile isExtend)).take nn).flatten).head? =
              some d → isExtend d = false := by
          intro d hd
          by_cases hnil :
              ((graphemes (rest.dropWhile isExtend)).take nn).flatten = []
          · simp [hnil] at hd
          · rw [head?_of_isPref hpref hnil] at hd
            have : d ∈ rest.dropWhile isExtend := by
              cases hdw : rest.dropWhile isExtend with
              | nil => simp [hdw] at hd
              | cons x t =>
                simp [hdw] at hd
                simp [hdw, hd]
            cases hdw : rest.dropWhile isExtend with
            | nil => simp [hdw] at hd
            | cons x t =>
              simp [hdw] at hd
              subst hd
              have := List.head_dropWhile_not isExtend rest (by simp [hdw])
              simpa [hdw] using this
        have hex : ∀ x ∈ rest.takeWhile isExtend, isExtend x = true :=
          fun x hx => List.mem_takeWhile_imp hx
        have hsplit := takeWhile_append_eq isExtend (rest.takeWhile isExtend)
          (((graphemes (rest.dropWhile isExtend)).take nn).flatten) hex hnotext
        rw [List.cons_append, graphemes_cons _ _ hc, hsplit.1, hsplit.2, hu]

theorem plainChar_iff (c : Char) :
    plainChar c = true ↔ c.toNat < 128 ∧ c ≠ '\r' := by
  simp [plainChar]

theorem not_isExtend_of_plain (c : Char) (h : plainChar c = true) :
    isExtend c = false := by
  rw [plainChar_iff] at h
  simp only [isExtend, decide_eq_false_iff_not, not_and, not_le]
  intro hc
  omega

theorem ne_cr_of_plain (c : Char) (h : plainChar c = true) : c ≠ '\r' :=
  ((plainChar_iff c).1 h).2

theorem graphemes_plain (s : List Char) (h : ∀ c ∈ s, plainChar c = true) :
    graphemes s = s.map (fun c => [c]) := by
  induction s using graphemes_ind with
  | h1 => simp [graphemes_nil]
  | h2 rest₂ _ =>
    exact absurd rfl (ne_cr_of_plain '\r' (h '\r' (by simp)))
  | h3 rest _ _ =>
    exact absurd rfl (ne_cr_of_plain '\r' (h '\r' (by simp)))
  | h4 c rest hc ih =>
    have htw : rest.takeWhile isExtend = [] := by
      cases hr : rest with
      | nil => simp
      | cons a t =>
        have ha := not_isExtend_of_plain a (h a (by simp [hr]))
        simp [List.takeWhile, ha]
    have hdw : rest.dropWhile isExtend = rest := by
      cases hr : rest with
      | nil => simp
      | cons a t =>
        have ha := not_isExtend_of_plain a (h a (by simp [hr]))
        simp [List.dropWhile, ha]
    rw [graphemes_cons c rest hc, htw, hdw]
    rw [hdw] at ih
    rw [ih (fun x hx => h x (by simp [hx]))]
    simp

theorem length_graphemes_plain (s : List Char)
    (h : ∀ c ∈ s, plainChar c = true) : (graphemes s).length = s.length := by
  rw [graphemes_plain s h]
  simp

theorem length_graphemes_le : ∀ s : List Char,
    (graphemes s).length ≤ s.length := by
  intro s
  induction s using graphemes_ind with
  | h1 => simp [graphemes_nil]
  | h2 rest₂ ih =>
    rw [graphemes_cons_cr_lf]
    simp only [List.length_cons]
    omega
  | h3 rest h ih =>
    rw [graphemes_cons_cr rest h]
    simp only [List.length_cons]
    omega
  | h4 c rest hc ih =>
    rw [graphemes_cons c rest hc]
    simp only [List.length_cons]
    have := length_dropWhile_le isExtend rest
    omega

theorem graphemes_ne_nil (s : List Char) (h : s ≠ []) : graphemes s ≠ [] := by
  cases s with
  | nil => exact absurd rfl h
  | cons c rest =>
    by_cases hc : c = '\r'
    · subst hc
      by_cases hh : rest.head? = some '\n'
      · cases rest with
        | nil => simp at hh
        | cons a t =>
          simp only [List.head?_cons, Option.some.injEq] at hh
          subst hh
          rw [graphemes_cons_cr_lf]
          simp
      · rw [graphemes_cons_cr rest hh]
        simp
    · rw [graphemes_cons c rest hc]
      simp

theorem insertLoop_mem (a : Nat) (c : Char) :
    ∀ (gs : List (List Char)) (i : Nat) (x : Char),
      x ∈ (insertLoop a c i gs).1 → x = c ∨ ∃ g ∈ gs, x ∈ g := by
  intro gs
  induction gs with
  | nil => intro i x hx; simp [insertLoop] at hx
  | cons g t ih =>
    intro i x hx
    simp only [insertLoop] at hx
    by_cases hi : i = a
    · simp only [if_pos hi, List.mem_cons, List.mem_append] at hx
      rcases hx with hx | hx | hx
      · exact Or.inl hx
      · exact Or.inr ⟨g, by simp, hx⟩
      · rcases ih (i + 1) x hx with h | ⟨g₂, hg₂, hxg⟩
        · exact Or.inl h
        · exact Or.inr ⟨g₂, by simp [hg₂], hxg⟩
    · simp only [if_neg hi, List.mem_append] at hx
      rcases hx with hx | hx
      · exact Or.inr ⟨g, by simp, hx⟩
      · rcases ih (i + 1) x hx with h | ⟨g₂, hg₂, hxg⟩
        · exact Or.inl h
        · exact Or.inr ⟨g₂, by simp [hg₂], hxg⟩

theorem insertLoop_len (a : Nat) (c : Char) :
    ∀ (gs : List (List Char)) (i : Nat), (∀ g ∈ gs, g.length = 1) →
      (insertLoop a c i gs).1.length = (insertLoop a c i gs).2 := by
  intro gs
  induction gs with
  | nil => intro i _; simp [insertLoop]
  | cons g t ih =>
    intro i h
    have hg : g.length = 1 := h g (by simp)
    have iht := ih (i + 1) (fun x hx => h x (by simp [hx]))
    simp only [insertLoop]
    by_cases hi : i = a
    · simp [if_pos hi, hg, iht]
      omega
    · simp [if_neg hi, hg, iht]
      omega

theorem deleteLoop_mem (a : Nat) :
    ∀ (gs : List (List Char)) (i : Nat) (x : Char),
      x ∈ (deleteLoop a i gs).1 → ∃ g ∈ gs, x ∈ g := by
  intro gs
  induction gs with
  | nil => intro i x hx; simp [deleteLoop] at hx
  | cons g t ih =>
    intro i x hx
    simp only [deleteLoop] at hx
    by_cases hi : i = a
    · rcases ih (i + 1) x (by simpa [if_pos hi] using hx) with ⟨g₂, hg₂, hxg⟩
      exact ⟨g₂, by simp [hg₂], hxg⟩
    · simp only [if_neg hi, List.mem_append] at hx
      rcases hx with hx | hx
      · exact ⟨g, by simp, hx⟩
      · rcases ih (i + 1) x hx with ⟨g₂, hg₂, hxg⟩
        exact ⟨g₂, by simp [hg₂], hxg⟩

theorem deleteLoop_len (a : Nat) :
    ∀ (gs : List (List Char)) (i : Nat), (∀ g ∈ gs, g.length = 1) →
      (deleteLoop a i gs).1.length = (deleteLoop a i gs).2 := by
  intro gs
  induction gs with
  | nil => intro i _; simp [deleteLoop]
  | cons g t ih =>
    intro i h
    have hg : g.length = 1 := h g (by simp)
    have iht := ih (i + 1) (fun x hx => h x (by simp [hx]))
    simp only [deleteLoop]
    by_cases hi : i = a
    · simpa [if_pos hi] using iht
    · simp [if_neg hi, hg, iht]
      omega

theorem splitLoop_mem (a : Nat) :
    ∀ (gs : List (List Char)) (i : Nat) (x : Char),
      (x ∈ (splitLoop a i gs).1.1 → ∃ g ∈ gs, x ∈ g) ∧
      (x ∈ (splitLoop a i gs).2.1 → ∃ g ∈ gs, x ∈ g) := by
  intro gs
  induction gs with
  | nil => intro i x; simp [splitLoop]
  | cons g t ih =>
    intro i x
    have iht := ih (i + 1) x
    constructor
    · intro hx
      simp only [splitLoop] at hx
      by_cases hi : i < a
      · simp only [if_pos hi, List.mem_append] at hx
        rcases hx with hx | hx
        · exact ⟨g, by simp, hx⟩
        · rcases iht.1 hx with ⟨g₂, hg₂, hxg⟩
          exact ⟨g₂, by simp [hg₂], hxg⟩
      · rcases iht.1 (by simpa [if_neg hi] using hx) with ⟨g₂, hg₂, hxg⟩
        exact ⟨g₂, by simp [hg₂], hxg⟩
    · intro hx
      simp only [splitLoop] at hx
      by_cases hi : i < a
      · rcases iht.2 (by simpa [if_pos hi] using hx) with ⟨g₂, hg₂, hxg⟩
        exact ⟨g₂, by simp [hg₂], hxg⟩
      · simp only [if_neg hi, List.mem_append] at hx
        rcases hx with hx | hx
        · exact ⟨g, by simp, hx⟩
        · rcases iht.2 hx with ⟨g₂, hg₂, hxg⟩
          exact ⟨g₂, by simp [hg₂], hxg⟩

theorem splitLoop_len (a : Nat) :
    ∀ (gs : List (List Char)) (i : Nat), (∀ g ∈ gs, g.length = 1) →
      (splitLoop a i gs).1.1.length = (splitLoop a i gs).1.2 ∧
      (splitLoop a i gs).2.1.length = (splitLoop a i gs).2.2 := by
  intro gs
  induction gs with
  | nil => intro i _; simp [splitLoop]
  | cons g t ih =>
    intro i h
    have hg : g.length = 1 := h g (by simp)
    have iht := ih (i + 1) (fun x hx => h x (by simp [hx]))
    simp only [splitLoop]
    by_cases hi : i < a
    · simp [if_pos hi, hg, iht.1, iht.2]
      omega
    · simp [if_neg hi, hg, iht.1, iht.2]
      omega

theorem splitLoop_left_nil (a : Nat) :
    ∀ (gs : List (List Char)) (i : Nat), a ≤ i →
      (splitLoop a i gs).1 = ([], 0) := by
  intro gs
  induction gs with
  | nil => intro i _; simp [splitLoop]
  | cons g t ih =>
    intro i hi
    simp only [splitLoop]
    rw [if_neg (by omega)]
    exact ih (i + 1) (by omega)

theorem splitLoop_append (a : Nat) :
    ∀ (gs : List (List Char)) (i : Nat),
      (splitLoop a i gs).1.1 ++ (splitLoop a i gs).2.1 = gs.flatten := by
  intro gs
  induction gs with
  | nil => intro i; simp [splitLoop]
  | cons g t ih =>
    intro i
    simp only [splitLoop, List.flatten_cons]
    by_cases hi : i < a
    · simp only [if_pos hi]
      rw [List.append_assoc, ih (i + 1)]
    · simp only [if_neg hi]
      have hl := splitLoop_left_nil a t (i + 1) (by omega)
      have := ih (i + 1)
      rw [hl] at this ⊢
      simp only [List.nil_append] at this ⊢
      rw [this]

theorem splitLoop_len_sum (a : Nat) :
    ∀ (gs : List (List Char)) (i : Nat),
      (splitLoop a i gs).1.2 + (splitLoop a i gs).2.2 = gs.length := by
  intro gs
  induction gs with
  | nil => intro i; simp [splitLoop]
  | cons g t ih =>
    intro i
    have iht := ih (i + 1)
    simp only [splitLoop, List.length_cons]
    by_cases hi : i < a
    · simp only [if_pos hi]
      omega
    · simp only [if_neg hi]
      omega

theorem wfRow_iff (r : Row) :
    wfRow r = true ↔
      (∀ c ∈ r.string, plainChar c = true) ∧ r.len = r.string.length := by
  simp [wfRow, List.all_eq_true]

theorem wfRow_insert (r : Row) (a : Nat) (c : Char) (hr : wfRow r = true)
    (hc : plainChar c = true) : wfRow (r.insert a c) = true := by
  rw [wfRow_iff] at hr
  rw [wfRow_iff]
  unfold Row.insert
  by_cases hcase : r.len ≤ a
  · rw [if_pos hcase]
    constructor
    · intro x hx
      simp only [List.mem_append, List.mem_singleton] at hx
      rcases hx with hx | rfl
      · exact hr.1 x hx
      · exact hc
    · simp [hr.2]
  · rw [if_neg hcase]
    have hplain := hr.1
    have hmap := graphemes_plain r.string hplain
    constructor
    · intro x hx
      rcases insertLoop_mem a c (graphemes r.string) 0 x hx with h | ⟨g, hg, hxg⟩
      · exact h ▸ hc
      · rw [hmap] at hg
        simp only [List.mem_map] at hg
        obtain ⟨y, hy, rfl⟩ := hg
        simp only [List.mem_singleton] at hxg
        exact hxg ▸ hplain y hy
    · exact (insertLoop_len a c (graphemes r.string) 0
        (by rw [hmap]; intro g hg; simp at hg; obtain ⟨y, _, rfl⟩ := hg; rfl)).symm

theorem wfRow_delete (r : Row) (a : Nat) (hr : wfRow r = true) :
    wfRow (r.delete a) = true := by
  rw [wfRow_iff] at hr
  unfold Row.delete
  by_cases hcase : r.len ≤ a
  · rw [if_pos hcase, wfRow_iff]
    exact hr
  · rw [if_neg hcase, wfRow_iff]
    have hmap := graphemes_plain r.string hr.1
    constructor
    · intro x hx
      rcases deleteLoop_mem a (graphemes r.string) 0 x hx with ⟨g, hg, hxg⟩
      rw [hmap] at hg
      simp only [List.mem_map] at hg
      obtain ⟨y, hy, rfl⟩ := hg
      simp only [List.mem_singleton] at hxg
      exact hxg ▸ hr.1 y hy
    · exact (deleteLoop_len a (graphemes r.string) 0
        (by rw [hmap]; intro g hg; simp at hg; obtain ⟨y, _, rfl⟩ := hg; rfl)).symm

theorem wfRow_split (r : Row) (a : Nat) (hr : wfRow r = true) :
    wfRow (r.split a).1 = true ∧ wfRow (r.split a).2 = true := by
  rw [wfRow_iff] at hr
  have hmap := graphemes_plain r.string hr.1
  have hsing : ∀ g ∈ graphemes r.string, g.length = 1 := by
    rw [hmap]
    intro g hg
    simp at hg
    obtain ⟨y, _, rfl⟩ := hg
    rfl
  have hlen := splitLoop_len a (graphemes r.string) 0 hsing
  constructor
  · rw [wfRow_iff]
    refine ⟨?_, (hlen.1).symm⟩
    intro x hx
    rcases (splitLoop_mem a (graphemes r.string) 0 x).1 hx with ⟨g, hg, hxg⟩
    rw [hmap] at hg
    simp only [List.mem_map] at hg
    obtain ⟨y, hy, rfl⟩ := hg
    simp only [List.mem_singleton] at hxg
    exact hxg ▸ hr.1 y hy
  · rw [wfRow_iff]
    refine ⟨?_, (hlen.2).symm⟩
    intro x hx
    rcases (splitLoop_mem a (graphemes r.string) 0 x).2 hx with ⟨g, hg, hxg⟩
    rw [hmap] at hg
    simp only [List.mem_map] at hg
    obtain ⟨y, hy, rfl⟩ := hg
    simp only [List.mem_singleton] at hxg
    exact hxg ▸ hr.1 y hy

theorem wfRow_append (r o : Row) (hr : wfRow r = true) (ho : wfRow o = true) :
    wfRow (r.append o) = true := by
  rw [wfRow_iff] at hr ho
  rw [wfRow_iff]
  unfold Row.append
  constructor
  · intro x hx
    simp only [List.mem_append] at hx
    rcases hx with hx | hx
    · exact hr.1 x hx
    · exact ho.1 x hx
  · simp [hr.2, ho.2]

theorem wfRow_applyOp (r : Row) (op : RowOp) (hr : wfRow r = true)
    (hop : opPlain op = true) : wfRow (applyOp r op) = true := by
  cases op with
  | insert a c => exact wfRow_insert r a c hr hop
  | delete a => exact wfRow_delete r a hr
  | splitLeft a => exact (wfRow_split r a hr).1
  | splitRight a => exact (wfRow_split r a hr).2
  | append o => exact wfRow_append r o hr hop

theorem wfRow_applyOps :
    ∀ (ops : List RowOp) (r : Row), wfRow r = true →
      (∀ op ∈ ops, opPlain op = true) → wfRow (applyOps r ops) = true := by
  intro ops
  induction ops with
  | nil => intro r hr _; exact hr
  | cons op t ih =>
    intro r hr hops
    have h₁ := wfRow_applyOp r op hr (hops op (by simp))
    exact ih (applyOp r op) h₁ (fun x hx => hops x (by simp [hx]))

/-- C1 counterexample: appending a row whose text is a lone combining
acute accent (U+0301) to the row `"e"` merges the two texts into a single
grapheme cluster, so the cached length (2) differs from the independently
computed grapheme count (1). -/
theorem C1_length_cache_cex :
    (applyOps (Row.fromStr (cs "e"))
        [RowOp.append (Row.fromStr [Char.ofNat 0x301])]).len ≠
      (graphemes (applyOps (Row.fromStr (cs "e"))
        [RowOp.append (Row.fromStr [Char.ofNat 0x301])]).string).length := by
  decide

/-- C1 (amended): for rows and operation payloads whose characters are
all ASCII other than carriage return — a set containing no scalar that
UAX #29 can merge with a neighbour from the same set, so no edit can join
grapheme clusters across a boundary — the cached `length` equals the
grapheme count of the row's text after any finite sequence of
`insert`/`delete`/`split`/`append`.  Outside this set the invariant is
genuinely violated by the program (see the counterexample; combining
marks, CRLF, Hangul jamo, regional indicators and ZWJ sequences all
merge under the real segmentation). -/
theorem C1_length_cache_plain (r : Row) (ops : List RowOp)
    (hr : wfRow r = true) (hops : ∀ op ∈ ops, opPlain op = true) :
    (applyOps r ops).len = (graphemes (applyOps r ops).string).length := by
  have hwf := wfRow_applyOps ops r hr hops
  rw [wfRow_iff] at hwf
  rw [hwf.2, length_graphemes_plain _ hwf.1]

/-- Witness for C1 on a concrete plain row and operation sequence. -/
theorem C1_length_cache_plain_witness :
    wfRow (Row.fromStr (cs "ab")) = true ∧
    (applyOps (Row.fromStr (cs "ab"))
        [RowOp.insert 1 'c', RowOp.delete 0, RowOp.splitLeft 1,
          RowOp.append (Row.fromStr (cs "xy"))]).len =
      (graphemes (applyOps (Row.fromStr (cs "ab"))
        [RowOp.insert 1 'c', RowOp.delete 0, RowOp.splitLeft 1,
          RowOp.append (Row.fromStr (cs "xy"))]).string).length :=
  ⟨by decide,
    C1_length_cache_plain (Row.fromStr (cs "ab"))
      [RowOp.insert 1 'c', RowOp.delete 0, RowOp.splitLeft 1,
        RowOp.append (Row.fromStr (cs "xy"))]
      (by decide) (by decide)⟩

/-- C5 counterexample: a freshly org-highlighted row (so
`is_highlighted = true`) keeps `is_highlighted = true` after both
`Row::insert` and `Row::delete`; neither method invalidates the cached
classification. -/
theorem C5_insert_delete_cex :
    ((Row.fromStr (cs "ab")).highlightOrg true none).map
        (fun p => (p.1.insert 0 'c').is_highlighted) = some true ∧
    ((Row.fromStr (cs "ab")).highlightOrg true none).map
        (fun p => (p.1.delete 0).is_highlighted) = some true := by
  constructor
  · decide
  · decide

/-- C5 (amended): `Row::insert` (every index, including the append case)
and `Row::delete` (every index) update the cached length but leave
`is_highlighted` exactly as it was; the cached classification is not
invalidated by these row methods. -/
theorem C5_insert_delete_keep_highlighted (r : Row) (a : Nat) (c : Char) :
    (r.insert a c).is_highlighted = r.is_highlighted ∧
    (r.delete a).is_highlighted = r.is_highlighted := by
  constructor
  · unfold Row.insert
    by_cases h : r.len ≤ a
    · rw [if_pos h]
    · rw [if_neg h]
  · unfold Row.delete
    by_cases h : r.len ≤ a
    · rw [if_pos h]
    · rw [if_neg h]

/-- C6 counterexample: from cursor (x=3, y=2), entering VisualLine mode
records the selection anchor at (x=0, y=2), not at the cursor. -/
theorem C6_visual_anchor_cex :
    (enter_visual_line_mode
        { should_quit := false, cursor_position := { x := 3, y := 2 },
          dirty := false, quit_times := 3, mode := Mode.Normal,
          command_state := CommandState.new,
          selection_start := none }).selection_start ≠
      some { x := 3, y := 2 } := by
  decide

/-- C6 (amended): entering Visual mode records the selection anchor at
the current cursor position; entering VisualLine mode records it at
column 0 of the cursor's row (the y coordinate of the cursor, x forced
to 0). -/
theorem C6_visual_anchor (e : TerminalEditor) :
    (enter_visual_mode e).selection_start = some e.cursor_position ∧
    (enter_visual_mode e).mode = Mode.Visual ∧
    (enter_visual_line_mode e).selection_start =
      some { x := 0, y := e.cursor_position.y } ∧
    (enter_visual_line_mode e).mode = Mode.VisualLine :=
  ⟨rfl, rfl, rfl, rfl⟩

/-- C7 counterexample: on the reachable row `"e" + U+0301` (cached length
2, built by `append`, text one grapheme cluster), `split(1)` followed by
`append` reconstitutes the text but not the cached length, although
`1 ≤ length`. -/
theorem C7_split_append_cex :
    1 ≤ ((Row.fromStr (cs "e")).append (Row.fromStr [Char.ofNat 0x301])).len ∧
    ((((Row.fromStr (cs "e")).append
          (Row.fromStr [Char.ofNat 0x301])).split 1).1.append
        (((Row.fromStr (cs "e")).append
          (Row.fromStr [Char.ofNat 0x301])).split 1).2).string =
      ((Row.fromStr (cs "e")).append (Row.fromStr [Char.ofNat 0x301])).string ∧
    ((((Row.fromStr (cs "e")).append
          (Row.fromStr [Char.ofNat 0x301])).split 1).1.append
        (((Row.fromStr (cs "e")).append
          (Row.fromStr [Char.ofNat 0x301])).split 1).2).len ≠
      ((Row.fromStr (cs "e")).append (Row.fromStr [Char.ofNat 0x301])).len := by
  refine ⟨by decide, by decide, by decide⟩

/-- C7 (amended): for every row and every `at` in `0..=length`,
`split(at)` followed by `append` of the split-off row reconstitutes the
original text exactly; the cached length is also reconstituted whenever
it was accurate (equal to the text's grapheme count) beforehand. -/
theorem C7_split_append (r : Row) (a : Nat) (_h : a ≤ r.len) :
    ((r.split a).1.append (r.split a).2).string = r.string ∧
    (r.len = (graphemes r.string).length →
      ((r.split a).1.append (r.split a).2).len = r.len) := by
  constructor
  · show (splitLoop a 0 (graphemes r.string)).1.1 ++
      (splitLoop a 0 (graphemes r.string)).2.1 = r.string
    rw [splitLoop_append, graphemes_flatten]
  · intro hlen
    show (splitLoop a 0 (graphemes r.string)).1.2 +
      (splitLoop a 0 (graphemes r.string)).2.2 = r.len
    rw [splitLoop_len_sum, hlen]

/-- Witness for C7 on a concrete row. -/
theorem C7_split_append_witness :
    1 ≤ (Row.fromStr (cs "abc")).len ∧
    ((((Row.fromStr (cs "abc")).split 1).1.append
        ((Row.fromStr (cs "abc")).split 1).2).string =
      (Row.fromStr (cs "abc")).string ∧
    ((Row.fromStr (cs "abc")).len =
        (graphemes (Row.fromStr (cs "abc")).string).length →
      (((Row.fromStr (cs "abc")).split 1).1.append
          ((Row.fromStr (cs "abc")).split 1).2).len =
        (Row.fromStr (cs "abc")).len)) :=
  ⟨by decide, C7_split_append (Row.fromStr (cs "abc")) 1 (by decide)⟩

/-- C2: with the generic ruleset's base classification stubbed out, a
fresh row `"a"` highlighted with the active search word `"a"` (carry-in
false, non-markup file type) leaves `highlighting` empty, and the Match
overlay of `Row::highlight_match` indexes `highlighting[0]` out of
bounds: the call panics (`none`) instead of returning control. -/
theorem C2_highlight_panic :
    (Row.fromStr (cs "a")).highlight {} (some (cs "a")) false
      { is_org := false } true = none := by
  decide

/-- C9 counterexample: document dirty, counter at 3.  Three Ctrl-Q
presses bring the counter to 0; a count digit ('5') is handled by an
early-returning branch that leaves the counter at 0 instead of resetting
it to 3; the next Ctrl-Q then quits, although the four Ctrl-Q presses
were not consecutive. -/
theorem C9_quit_counter_cex :
    (process_keys
        { should_quit := false, cursor_position := { x := 0, y := 0 },
          dirty := true, quit_times := 3, mode := Mode.Normal,
          command_state := CommandState.new, selection_start := none }
        [EKey.ctrlQ, EKey.ctrlQ, EKey.ctrlQ,
          EKey.charKey '5']).quit_times = 0 ∧
    (process_keys
        { should_quit := false, cursor_position := { x := 0, y := 0 },
          dirty := true, quit_times := 3, mode := Mode.Normal,
          command_state := CommandState.new, selection_start := none }
        [EKey.ctrlQ, EKey.ctrlQ, EKey.ctrlQ, EKey.charKey '5',
          EKey.ctrlQ]).should_quit = true := by
  refine ⟨by decide, by decide⟩

/-- C9 (amended): while the document is dirty and the counter is
positive a Ctrl-Q never quits, it only decrements the counter (so a
single Ctrl-Q from the initial counter 3 never quits); Ctrl-Q quits
exactly when the counter is 0 or the document is clean; an accepted count
digit is handled by an early return that leaves the counter unchanged
(it does not reset it); only keys that fall through to the end of
`process_keypress` reset the counter to 3. -/
theorem C9_quit_counter (e : TerminalEditor) (c : Char) :
    (e.dirty = true → 0 < e.quit_times →
      (process_keypress_normal e EKey.ctrlQ).should_quit = e.should_quit ∧
      (process_keypress_normal e EKey.ctrlQ).quit_times = e.quit_times - 1) ∧
    (e.quit_times = 0 ∨ e.dirty = false →
      (process_keypress_normal e EKey.ctrlQ).should_quit = true) ∧
    (c.isDigit = true → (c ≠ '0' ∨ e.command_state.has_count = true) →
      (process_keypress_normal e (EKey.charKey c)).quit_times =
        e.quit_times) ∧
    (¬(c.isDigit = true ∧ (c ≠ '0' ∨ e.command_state.has_count = true)) →
      e.quit_times ≤ QUIT_TIMES →
      (process_keypress_normal e (EKey.charKey c)).quit_times =
        QUIT_TIMES) := by
  refine ⟨?_, ?_, ?_, ?_⟩
  · intro hd hq
    simp only [process_keypress_normal]
    rw [if_pos ⟨hq, hd⟩]
    exact ⟨rfl, rfl⟩
  · intro h
    simp only [process_keypress_normal]
    rw [if_neg (by rcases h with h | h <;> simp [h])]
  · intro hdig hz
    simp only [process_keypress_normal]
    rw [if_pos ⟨hdig, hz⟩]
  · intro hnot hle
    by_cases hop : e.command_state.is_operator_pending = true
    · by_cases hlt : e.quit_times < QUIT_TIMES
      · simp [process_keypress_normal, hnot, hop, hlt]
      · simp [process_keypress_normal, hnot, hop, hlt]
        simp only [QUIT_TIMES] at hle hlt ⊢
        omega
    · by_cases hlt : e.quit_times < QUIT_TIMES
      · simp [process_keypress_normal, hnot, hop, hlt]
      · simp [process_keypress_normal, hnot, hop, hlt]
        simp only [QUIT_TIMES] at hle hlt ⊢
        omega

/-- Witness for C9 at a concrete dirty editor state and the key '?'. -/
theorem C9_quit_counter_witness :
    ((process_keypress_normal
        { should_quit := false, cursor_position := { x := 0, y := 0 },
          dirty := true, quit_times := 3, mode := Mode.Normal,
          command_state := CommandState.new, selection_start := none }
        EKey.ctrlQ).should_quit = false ∧
      (process_keypress_normal
        { should_quit := false, cursor_position := { x := 0, y := 0 },
          dirty := true, quit_times := 3, mode := Mode.Normal,
          command_state := CommandState.new, selection_start := none }
        EKey.ctrlQ).quit_times = 3 - 1) ∧
    (process_keypress_normal
        { should_quit := false, cursor_position := { x := 0, y := 0 },
          dirty := true, quit_times := 1, mode := Mode.Normal,
          command_state := CommandState.new, selection_start := none }
        (EKey.charKey '7')).quit_times = 1 ∧
    (process_keypress_normal
        { should_quit := false, cursor_position := { x := 0, y := 0 },
          dirty := true, quit_times := 1, mode := Mode.Normal,
          command_state := CommandState.new, selection_start := none }
        (EKey.charKey '?')).quit_times = QUIT_TIMES :=
  ⟨(C9_quit_counter
      { should_quit := false, cursor_position := { x := 0, y := 0 },
        dirty := true, quit_times := 3, mode := Mode.Normal,
        command_state := CommandState.new, selection_start := none }
      '0').1 rfl (by decide),
    (C9_quit_counter
      { should_quit := false, cursor_position := { x := 0, y := 0 },
        dirty := true, quit_times := 1, mode := Mode.Normal,
        command_state := CommandState.new, selection_start := none }
      '7').2.2.1 (by decide) (Or.inl (by decide)),
    (C9_quit_counter
      { should_quit := false, cursor_position := { x := 0, y := 0 },
        dirty := true, quit_times := 1, mode := Mode.Normal,
        command_state := CommandState.new, selection_start := none }
      '?').2.2.2 (by decide) (by decide)⟩

theorem promptLoop_ret_some :
    ∀ (ks : List PKey) (acc s : List Char),
      promptLoop acc ks = PromptOutcome.ret (some s) → s ≠ [] := by
  intro ks
  induction ks with
  | nil =>
    intro acc s h
    simp [promptLoop] at h
  | cons k t ih =>
    intro acc s h
    match k with
    | PKey.backspace =>
      simp only [promptLoop] at h
      cases hl : acc.getLast? with
      | none =>
        rw [hl] at h
        exact ih acc s h
      | some c =>
        rw [hl] at h
        dsimp only at h
        by_cases hsz : c.utf8Size = 1
        · rw [if_pos hsz] at h
          exact ih acc.dropLast s h
        · rw [if_neg hsz] at h
          simp at h
    | PKey.charKey c =>
      simp only [promptLoop] at h
      by_cases hnl : c = '\n'
      · rw [if_pos hnl] at h
        by_cases hacc : acc = []
        · rw [if_pos hacc] at h
          simp at h
        · rw [if_neg hacc] at h
          simp only [PromptOutcome.ret.injEq, Option.some.injEq] at h
          exact h ▸ hacc
      · rw [if_neg hnl] at h
        by_cases hctl : isRustControl c = true
        · rw [if_pos hctl] at h
          exact ih acc s h
        · rw [if_neg hctl] at h
          exact ih (acc ++ [c]) s h
    | PKey.esc =>
      simp [promptLoop] at h
    | PKey.other =>
      simp only [promptLoop] at h
      exact ih acc s h

/-- C10: the prompt input loop returns `None` exactly when the
accumulated input is empty at loop exit — Escape clears the input and
always yields `None`; Enter yields `Some` of the non-empty accumulated
input (or `None` when it is empty); any `Some` result is non-empty;
control characters are ignored and Backspace on empty input is a no-op —
neither errors. -/
theorem C10_prompt_contract (acc : List Char) (ks : List PKey) (c : Char) :
    promptLoop acc (PKey.esc :: ks) = PromptOutcome.ret none ∧
    promptLoop acc (PKey.charKey '\n' :: ks) =
      PromptOutcome.ret (if acc = [] then none else some acc) ∧
    (∀ s, promptLoop acc ks = PromptOutcome.ret (some s) → s ≠ []) ∧
    (isRustControl c = true → c ≠ '\n' →
      promptLoop acc (PKey.charKey c :: ks) = promptLoop acc ks) ∧
    promptLoop [] (PKey.backspace :: ks) = promptLoop [] ks := by
  refine ⟨rfl, by simp [promptLoop], promptLoop_ret_some ks acc, ?_, rfl⟩
  intro hctl hnl
  simp only [promptLoop, if_neg hnl, if_pos hctl]

/-- Witness for C10 at concrete inputs (the BEL control character). -/
theorem C10_prompt_contract_witness :
    promptLoop (cs "hi") [PKey.esc] = PromptOutcome.ret none ∧
    promptLoop (cs "hi") [PKey.charKey '\n'] =
      PromptOutcome.ret (if cs "hi" = [] then none else some (cs "hi")) ∧
    ((cs "hi") ≠ [] → True) ∧
    promptLoop (cs "hi") [PKey.charKey (Char.ofNat 7)] =
      promptLoop (cs "hi") [] ∧
    promptLoop [] [PKey.backspace] = promptLoop [] [] := by
  have h := C10_prompt_contract (cs "hi") [] (Char.ofNat 7)
  exact ⟨h.1, h.2.1, fun _ => trivial, h.2.2.2.1 (by decide) (by decide),
    h.2.2.2.2⟩

theorem isPrefixCB_iff : ∀ q s : List Char, isPrefixCB q s = true ↔ q <+: s := by
  intro q
  induction q with
  | nil => intro s; simp [isPrefixCB]
  | cons a as ih =>
    intro s
    cases s with
    | nil => simp [isPrefixCB]
    | cons b bs =>
      simp only [isPrefixCB, Bool.and_eq_true, decide_eq_true_eq,
        List.cons_prefix_cons]
      exact and_congr Iff.rfl (ih bs)

theorem strFind_some (q : List Char) :
    ∀ hay b, strFind q hay = some b → q <+: hay.drop b := by
  intro hay
  induction hay with
  | nil =>
    intro b h
    simp only [strFind] at h
    by_cases hp : isPrefixCB q [] = true
    · rw [if_pos hp] at h
      simp only [Option.some.injEq] at h
      rw [← h]
      exact (isPrefixCB_iff q []).1 hp
    · rw [if_neg hp] at h
      simp at h
  | cons c t ih =>
    intro b h
    simp only [strFind] at h
    by_cases hp : isPrefixCB q (c :: t) = true
    · rw [if_pos hp] at h
      simp only [Option.some.injEq] at h
      rw [← h]
      exact (isPrefixCB_iff q (c :: t)).1 hp
    · rw [if_neg hp] at h
      simp only [Option.map_eq_some'] at h
      obtain ⟨b₂, hb₂, rfl⟩ := h
      simpa using ih b₂ hb₂

theorem strRFind_some (q : List Char) :
    ∀ hay b, strRFind q hay = some b → q <+: hay.drop b := by
  intro hay
  induction hay with
  | nil =>
    intro b h
    simp only [strRFind] at h
    by_cases hp : isPrefixCB q [] = true
    · rw [if_pos hp] at h
      simp only [Option.some.injEq] at h
      rw [← h]
      exact (isPrefixCB_iff q []).1 hp
    · rw [if_neg hp] at h
      simp at h
  | cons c t ih =>
    intro b h
    simp only [strRFind] at h
    cases hr : strRFind q t with
    | some b₂ =>
      rw [hr] at h
      simp only [Option.some.injEq] at h
      rw [← h]
      simpa using ih b₂ hr
    | none =>
      rw [hr] at h
      by_cases hp : isPrefixCB q (c :: t) = true
      · rw [if_pos hp] at h
        simp only [Option.some.injEq] at h
        rw [← h]
        exact (isPrefixCB_iff q (c :: t)).1 hp
      · rw [if_neg hp] at h
        simp at h

theorem clusterIndexLoop_spec :
    ∀ (gs : List (List Char)) (gi₀ off₀ b gi : Nat),
      clusterIndexLoop b gi₀ off₀ gs = some gi →
      ∃ k, gi = gi₀ + k ∧ k < gs.length ∧
        b = off₀ + ((gs.take k).map List.length).sum := by
  intro gs
  induction gs with
  | nil => intro gi₀ off₀ b gi h; simp [clusterIndexLoop] at h
  | cons g t ih =>
    intro gi₀ off₀ b gi h
    simp only [clusterIndexLoop] at h
    by_cases hoff : off₀ = b
    · rw [if_pos hoff] at h
      simp only [Option.some.injEq] at h
      exact ⟨0, by omega, by simp, by simp [hoff]⟩
    · rw [if_neg hoff] at h
      obtain ⟨k, hgi, hk, hb⟩ := ih (gi₀ + 1) (off₀ + g.length) b gi h
      refine ⟨k + 1, by omega, by simp only [List.length_cons]; omega, ?_⟩
      simp only [List.take_succ_cons, List.map_cons, List.sum_cons]
      omega

theorem flatten_drop_sum {α : Type} :
    ∀ (gs : List (List α)) (k : Nat),
      gs.flatten.drop (((gs.take k).map List.length).sum) =
        (gs.drop k).flatten := by
  intro gs
  induction gs with
  | nil => intro k; simp
  | cons g t ih =>
    intro k
    cases k with
    | zero => simp
    | succ kk =>
      simp only [List.take_succ_cons, List.map_cons, List.sum_cons,
        List.flatten_cons, List.drop_succ_cons]
      rw [← List.drop_drop, List.drop_left]
      exact ih kk

theorem sliceOcc (s q : List Char) (a n b gi : Nat)
    (hpre : q <+: ((((graphemes s).drop a).take n).flatten).drop b)
    (hidx : clusterIndexLoop b 0 0
      (graphemes ((((graphemes s).drop a).take n).flatten)) = some gi) :
    gi < (((graphemes s).drop a).take n).length ∧
      q <+: ((graphemes s).drop (a + gi)).flatten := by
  rw [graphemes_slice] at hidx
  obtain ⟨k, hgi, hk, hb⟩ := clusterIndexLoop_spec _ 0 0 b gi hidx
  have hkgi : k = gi := by omega
  subst hkgi
  refine ⟨hk, ?_⟩
  rw [hb] at hpre
  simp only [Nat.zero_add] at hpre
  rw [flatten_drop_sum] at hpre
  have hdt : (((graphemes s).drop a).take n).drop k =
      ((graphemes s).drop (a + k)).take (n - k) := by
    rw [List.drop_take, List.drop_drop]
  rw [hdt] at hpre
  calc q <+: (((graphemes s).drop (a + k)).take (n - k)).flatten := hpre
    _ <+: ((graphemes s).drop (a + k)).flatten :=
      flatten_take_isPref _ _

/-- C8: `Row::find` with an empty query always returns none, and whenever
it returns `Some i`, `i` is a valid grapheme index of the row at which
the query occurs — the query is a prefix of the text read from cluster
boundary `i` on, so a match index never falls inside a multi-codepoint
cluster. -/
theorem C8_find_boundary (s q : List Char) (at_ : Nat)
    (dir : SearchDirection) :
    (Row.fromStr s).find [] at_ dir = none ∧
    ∀ i, (Row.fromStr s).find q at_ dir = some i →
      i < (graphemes s).length ∧ q <+: ((graphemes s).drop i).flatten := by
  constructor
  · simp [Row.find, findCore]
  · intro i h
    unfold Row.find findCore at h
    by_cases hguard : (Row.fromStr s).len < at_ ∨ q = []
    · rw [if_pos hguard] at h
      simp at h
    · rw [if_neg hguard] at h
      push_neg at hguard
      have hat : at_ ≤ (graphemes s).length := by
        have := hguard.1
        simp only [Row.fromStr] at this
        omega
      cases dir with
      | Forward =>
        simp only [reduceIte, Row.fromStr] at h
        cases hf : strFind q
            ((((graphemes s).drop at_).take
              ((graphemes s).length - at_)).flatten) with
        | none => rw [hf] at h; simp at h
        | some b =>
          rw [hf] at h
          dsimp only at h
          cases hcl : clusterIndexLoop b 0 0
              (graphemes ((((graphemes s).drop at_).take
                ((graphemes s).length - at_)).flatten)) with
          | none => rw [hcl] at h; simp at h
          | some gi =>
            rw [hcl] at h
            simp only [Option.some.injEq] at h
            have hocc := sliceOcc s q at_ ((graphemes s).length - at_) b gi
              (strFind_some q _ b hf) hcl
            have hslen : (((graphemes s).drop at_).take
                ((graphemes s).length - at_)).length =
                (graphemes s).length - at_ := by
              simp [List.length_take, List.length_drop]
            constructor
            · rw [← h]
              rw [hslen] at hocc
              omega
            · rw [← h]
              exact hocc.2
      | Backward =>
        have hbf : (SearchDirection.Backward = SearchDirection.Forward) = False := by
          simp
        simp only [Row.fromStr, hbf, if_false] at h
        cases hf : strRFind q
            ((((graphemes s).drop 0).take (at_ - 0)).flatten) with
        | none => rw [hf] at h; simp at h
        | some b =>
          rw [hf] at h
          dsimp only at h
          cases hcl : clusterIndexLoop b 0 0
              (graphemes ((((graphemes s).drop 0).take (at_ - 0)).flatten))
              with
          | none => rw [hcl] at h; simp at h
          | some gi =>
            rw [hcl] at h
            simp only [Option.some.injEq] at h
            have hocc := sliceOcc s q 0 (at_ - 0) b gi
              (strRFind_some q _ b hf) hcl
            have hslen : (((graphemes s).drop 0).take (at_ - 0)).length ≤
                (graphemes s).length := by
              simp [List.length_take, List.length_drop]
            constructor
            · rw [← h]
              omega
            · rw [← h]
              simpa using hocc.2

/-- Witness for C8 on a concrete row and query. -/
theorem C8_find_boundary_witness :
    (Row.fromStr (cs "abc")).find [] 0 SearchDirection.Forward = none ∧
    (1 < (graphemes (cs "abc")).length ∧
      cs "b" <+: ((graphemes (cs "abc")).drop 1).flatten) :=
  ⟨(C8_find_boundary (cs "abc") (cs "b") 0 SearchDirection.Forward).1,
    (C8_find_boundary (cs "abc") (cs "b") 0 SearchDirection.Forward).2 1
      (by decide)⟩

theorem utf8Size_one_of_ascii (c : Char) (h : c.toNat < 128) :
    c.utf8Size = 1 := by
  unfold Char.utf8Size
  have hle : c.val ≤ UInt32.ofNatCore 127 Char.utf8Size.proof_1 := by
    rw [UInt32.le_def, BitVec.le_def]
    exact Nat.lt_succ_iff.mp h
  simp only [hle, if_true]

theorem le_utf8Len : ∀ s : List Char, s.length ≤ utf8Len s := by
  intro s
  induction s with
  | nil => simp [utf8Len]
  | cons c t ih =>
    have := Char.utf8Size_pos c
    simp only [utf8Len, List.map_cons, List.sum_cons, List.length_cons]
    simp only [utf8Len] at ih
    omega

theorem utf8Len_eq_of_ascii (s : List Char) (h : ∀ c ∈ s, c.toNat < 128) :
    utf8Len s = s.length := by
  induction s with
  | nil => simp [utf8Len]
  | cons c t ih =>
    have h1 := utf8Size_one_of_ascii c (h c (by simp))
    have h2 := ih (fun x hx => h x (by simp [hx]))
    simp only [utf8Len, List.map_cons, List.sum_cons, List.length_cons] at *
    omega

theorem plain_of_ascii (c : Char) (h : c.toNat < 128) (hr : c ≠ '\r') :
    plainChar c = true :=
  (plainChar_iff c).2 ⟨h, hr⟩

theorem utf8Len_append (a b : List Char) :
    utf8Len (a ++ b) = utf8Len a + utf8Len b := by
  simp [utf8Len]

theorem markLoop_length :
    ∀ (fuel : Nat) (hl : List HlType) (i : Nat),
      (markLoop hl i fuel).length = hl.length := by
  intro fuel
  induction fuel with
  | zero => intro hl i; rfl
  | succ f ih =>
    intro hl i
    simp only [markLoop]
    rw [ih]
    simp

theorem setMatchRange_some_length (hl hl' : List HlType) (a b : Nat)
    (h : setMatchRange hl a b = some hl') : hl'.length = hl.length := by
  unfold setMatchRange at h
  by_cases hc : a < b ∧ hl.length < b
  · rw [if_pos hc] at h
    simp at h
  · rw [if_neg hc] at h
    simp only [Option.some.injEq] at h
    rw [← h, markLoop_length]

theorem hmGoF_some_length :
    ∀ (fuel : Nat) (s : List Char) (len : Nat) (w : List Char)
      (hl hl' : List HlType) (i : Nat),
      hmGoF fuel s len w hl i = some hl' → hl'.length = hl.length := by
  intro fuel
  induction fuel with
  | zero => intro s len w hl hl' i h; simp [hmGoF] at h
  | succ f ih =>
    intro s len w hl hl' i h
    simp only [hmGoF] at h
    cases hfind : findCore s len w i SearchDirection.Forward with
    | none =>
      rw [hfind] at h
      simp only [Option.some.injEq] at h
      rw [← h]
    | some m =>
      rw [hfind] at h
      dsimp only at h
      cases hset : setMatchRange hl m (m + (graphemes w).length) with
      | none => rw [hset] at h; simp at h
      | some hl₂ =>
        rw [hset] at h
        dsimp only at h
        rw [ih s len w hl₂ hl' _ h]
        exact setMatchRange_some_length hl hl₂ _ _ hset

theorem highlightMatch_some_length (s : List Char) (len : Nat)
    (w : Option (List Char)) (hl hl' : List HlType)
    (h : highlightMatch s len w hl = some hl') : hl'.length = hl.length := by
  unfold highlightMatch at h
  cases w with
  | none => simp only [Option.some.injEq] at h; rw [← h]
  | some q =>
    dsimp only at h
    by_cases hq : q = []
    · rw [if_pos hq] at h
      simp only [Option.some.injEq] at h
      rw [← h]
    · rw [if_neg hq] at h
      exact hmGoF_some_length (len + 1) s len q hl hl' 0 h

theorem styleStep_length (chars : List Char) (res : List HlType) (i : Nat) :
    (styleStep chars res i).length = res.length := by
  unfold styleStep
  split
  · dsimp only
    split_ifs <;> (repeat' split) <;> simp [List.length_set]
  · rfl

theorem styleLoop_length :
    ∀ (fuel : Nat) (chars : List Char) (res : List HlType) (i : Nat),
      (styleLoop chars res i fuel).length = res.length := by
  intro fuel
  induction fuel with
  | zero => intro chars res i; rfl
  | succ f ih =>
    intro chars res i
    simp only [styleLoop]
    by_cases hc : i < chars.length
    · rw [if_pos hc, ih, styleStep_length]
    · rw [if_neg hc]

theorem isPrefixCB_length_le (p l : List Char) (h : isPrefixCB p l = true) :
    p.length ≤ l.length :=
  ((isPrefixCB_iff p l).1 h).length_le

theorem length_takeWhile_le' (p : Char → Bool) (l : List Char) :
    (l.takeWhile p).length ≤ l.length := by
  induction l with
  | nil => simp [List.takeWhile]
  | cons a t ih =>
    simp only [List.takeWhile]
    cases p a
    · simp
    · simp
      omega

theorem orgHighlightLine_length (line : List Char) :
    (orgHighlightLine line).length = line.length := by
  unfold orgHighlightLine
  by_cases hstar : line.head? = some '*'
  · rw [if_pos hstar]
    have hlev : (line.takeWhile (· = '*')).length ≤ line.length :=
      length_takeWhile_le' _ _
    by_cases hlt : (line.takeWhile (· = '*')).length < line.length
    · rw [if_pos hlt]
      by_cases htodo : isPrefixCB (cs "TODO ")
          ((line.drop (line.takeWhile (· = '*')).length).dropWhile
            isRustWhitespace) = true
      · rw [if_pos htodo]
        have h5 := isPrefixCB_length_le _ _ htodo
        have hdw := length_dropWhile_le isRustWhitespace
          (line.drop (line.takeWhile (· = '*')).length)
        simp only [List.length_drop] at hdw
        have h5' : (cs "TODO ").length = 5 := rfl
        simp only [List.length_append, List.length_replicate]
        omega
      · rw [if_neg htodo]
        by_cases hdone : isPrefixCB (cs "DONE ")
            ((line.drop (line.takeWhile (· = '*')).length).dropWhile
              isRustWhitespace) = true
        · rw [if_pos hdone]
          have h5 := isPrefixCB_length_le _ _ hdone
          have hdw := length_dropWhile_le isRustWhitespace
            (line.drop (line.takeWhile (· = '*')).length)
          simp only [List.length_drop] at hdw
          have h5' : (cs "DONE ").length = 5 := rfl
          simp only [List.length_append, List.length_replicate]
          omega
        · rw [if_neg hdone]
          simp only [List.length_append, List.length_replicate]
          omega
    · rw [if_neg hlt]
      simp only [List.length_replicate]
      omega
  · rw [if_neg hstar]
    by_cases hlist : isPrefixCB (cs "- ") line = true ∨
        isPrefixCB (cs "+ ") line = true ∨ isPrefixCB (cs "* ") line = true
    · rw [if_pos hlist]
      have h2 : 2 ≤ line.length := by
        rcases hlist with h | h | h
        · exact isPrefixCB_length_le _ _ h
        · exact isPrefixCB_length_le _ _ h
        · exact isPrefixCB_length_le _ _ h
      simp only [List.length_cons, List.length_replicate]
      omega
    · rw [if_neg hlist]
      by_cases htag : (strFind (cs "::") line).isSome = true
      · rw [if_pos htag]
        simp
      · rw [if_neg htag]
        rw [styleLoop_length]
        simp

theorem starSlashByteIdx_le (s : List Char) (bi : Nat)
    (h : starSlashByteIdx s = some bi) : bi + 2 ≤ utf8Len s := by
  unfold starSlashByteIdx at h
  simp only [Option.map_eq_some'] at h
  obtain ⟨p, hp, rfl⟩ := h
  have hocc := strFind_some (cs "*/") s p hp
  have h2 : 2 ≤ (s.drop p).length := hocc.length_le
  have hsplit : utf8Len s = utf8Len (s.take p) + utf8Len (s.drop p) := by
    rw [← utf8Len_append, List.take_append_drop]
  have := le_utf8Len (s.drop p)
  omega

/-- C4 counterexample: highlighting `"* TODO write spec"` under the markup
ruleset classifies grapheme 1 (the space before `TODO`) as TodoKeyword,
not Headline as the claim requires for every grapheme outside 0 and
2–5. -/
theorem C4_org_todo_cex :
    ((Row.fromStr (cs "* TODO write spec")).highlight {} none false
        { is_org := true } true).map
      (fun p => p.1.highlighting.getD 1 HlType.None) = some HlType.OrgTodo := by
  decide

/-- C4 (amended): highlighting the row `"* TODO write spec"` under the
markup ruleset classifies grapheme 0 (the asterisk) as Headline,
graphemes 1 through 5 (the space before `TODO` together with `TODO`) as
TodoKeyword, and graphemes 6 through 16 as Headline: the TODO span is
shifted one column left of the keyword because the classifier skips
whitespace when detecting `TODO ` but not when emitting the spans. -/
theorem C4_org_todo_classification :
    ((Row.fromStr (cs "* TODO write spec")).highlight {} none false
        { is_org := true } true).map (fun p => p.1.highlighting) =
      some ([HlType.OrgHeadline] ++ List.replicate 5 HlType.OrgTodo ++
        List.replicate 11 HlType.OrgHeadline) := by
  decide

/-- C3 counterexample: the markup classifier works per code point, so on
the one-grapheme row `"e" + U+0301` it produces a highlighting vector of
length 2 > 1 grapheme: the invariant
`highlighting.len() <= text.grapheme_count()` fails after `highlight`
under the markup ruleset. -/
theorem C3_highlight_bounds_cex :
    ((Row.fromStr ['e', Char.ofNat 0x301]).highlight {} none false
        { is_org := true } true).map
      (fun p =>
        decide (p.1.highlighting.length ≤ (graphemes p.1.string).length)) =
      some false := by
  decide

theorem highlightOrg_bounds (r : Row) (lockOk : Bool)
    (w : Option (List Char)) (r' : Row) (b : Bool)
    (h : r.highlightOrg lockOk w = some (r', b)) :
    r'.string = r.string ∧ r'.highlighting.length ≤ utf8Len r.string := by
  unfold Row.highlightOrg at h
  dsimp only at h
  cases hm : highlightMatch r.string r.len w
      (if lockOk = true then orgHighlightLine r.string
        else List.replicate (utf8Len r.string) HlType.None) with
  | none => rw [hm] at h; simp at h
  | some hl =>
    rw [hm] at h
    dsimp only at h
    simp only [Option.some.injEq, Prod.mk.injEq] at h
    obtain ⟨h1, _⟩ := h
    rw [← h1]
    refine ⟨rfl, ?_⟩
    have hlen := highlightMatch_some_length _ _ _ _ _ hm
    by_cases hlock : lockOk = true
    · rw [if_pos hlock] at hlen
      rw [orgHighlightLine_length] at hlen
      simp only [hlen]
      exact le_utf8Len r.string
    · rw [if_neg hlock] at hlen
      simp only [List.length_replicate] at hlen
      simp [hlen]

/-- C3 (amended): after `Row::highlight` on a freshly created row — under
the markup ruleset, the generic ruleset, and the lock-failure fallback —
the bound `highlighting.len() <= byte length of the text` holds (the
markup classifier emits one entry per code point, the fallback one per
byte, so the grapheme-count bound of the claim holds only for rows of
one-byte characters without CR, as restated in the second conjunct), and
any grapheme index not covered by `highlighting` is rendered as category
`None`. -/
theorem C3_highlight_bounds (s : List Char) (opts : HighlightingOptions)
    (w : Option (List Char)) (carry : Bool) (ft : FileType) (lockOk : Bool)
    (r' : Row) (b : Bool)
    (h : (Row.fromStr s).highlight opts w carry ft lockOk = some (r', b)) :
    r'.highlighting.length ≤ utf8Len r'.string ∧
    ((∀ c ∈ s, c.toNat < 128 ∧ c ≠ '\r') →
      r'.highlighting.length ≤ (graphemes r'.string).length) ∧
    (∀ i, r'.highlighting.length ≤ i → r'.renderCategory i = HlType.None) := by
  have key : r'.string = s ∧ r'.highlighting.length ≤ utf8Len s := by
    unfold Row.highlight at h
    by_cases horg : ft.is_org = true
    · rw [if_pos horg] at h
      have := highlightOrg_bounds (Row.fromStr s) lockOk w r' b h
      simpa [Row.fromStr] using this
    · rw [if_neg horg] at h
      rw [if_neg (by simp [Row.fromStr])] at h
      simp only [Row.fromStr] at h
      cases carry with
      | false =>
        simp only [Bool.false_eq_true, if_false] at h
        cases hm : highlightMatch s (graphemes s).length w [] with
        | none => rw [hm] at h; simp at h
        | some hl =>
          rw [hm] at h
          dsimp only at h
          simp only [Option.some.injEq, Prod.mk.injEq] at h
          obtain ⟨h1, _⟩ := h
          rw [← h1]
          refine ⟨rfl, ?_⟩
          have hlen := highlightMatch_some_length _ _ _ _ _ hm
          simp only [List.length_nil] at hlen
          simp [hlen]
      | true =>
        simp only [eq_self_iff_true, if_true] at h
        cases hss : starSlashByteIdx s with
        | some bi =>
          rw [hss] at h
          dsimp only at h
          cases hm : highlightMatch s (graphemes s).length w
              (List.replicate (bi + 2) HlType.MultilineComment) with
          | none => rw [hm] at h; simp at h
          | some hl =>
            rw [hm] at h
            dsimp only at h
            have hlen := highlightMatch_some_length _ _ _ _ _ hm
            simp only [List.length_replicate] at hlen
            have hle := starSlashByteIdx_le s bi hss
            cases hlt : lastTwoBytesNeStarSlashSat s with
            | none => rw [hlt] at h; simp at h
            | some tb =>
              rw [hlt] at h
              cases tb with
              | true =>
                dsimp only at h
                simp only [Option.some.injEq, Prod.mk.injEq] at h
                obtain ⟨h1, _⟩ := h
                rw [← h1]
                exact ⟨rfl, by simp [hlen]; omega⟩
              | false =>
                dsimp only at h
                simp only [Option.some.injEq, Prod.mk.injEq] at h
                obtain ⟨h1, _⟩ := h
                rw [← h1]
                exact ⟨rfl, by simp [hlen]; omega⟩
        | none =>
          rw [hss] at h
          dsimp only at h
          cases hm : highlightMatch s (graphemes s).length w
              (List.replicate s.length HlType.MultilineComment) with
          | none => rw [hm] at h; simp at h
          | some hl =>
            rw [hm] at h
            dsimp only at h
            have hlen := highlightMatch_some_length _ _ _ _ _ hm
            simp only [List.length_replicate] at hlen
            have hle := le_utf8Len s
            cases hlt : lastTwoBytesNeStarSlashSat s with
            | none => rw [hlt] at h; simp at h
            | some tb =>
              rw [hlt] at h
              cases tb with
              | true =>
                dsimp only at h
                simp only [Option.some.injEq, Prod.mk.injEq] at h
                obtain ⟨h1, _⟩ := h
                rw [← h1]
                exact ⟨rfl, by simp [hlen]; omega⟩
              | false =>
                dsimp only at h
                simp only [Option.some.injEq, Prod.mk.injEq] at h
                obtain ⟨h1, _⟩ := h
                rw [← h1]
                exact ⟨rfl, by simp [hlen]; omega⟩
  obtain ⟨hstr, hlen⟩ := key
  refine ⟨by rw [hstr]; exact hlen, ?_, ?_⟩
  · intro hascii
    rw [hstr]
    have h1 : utf8Len s = s.length :=
      utf8Len_eq_of_ascii s (fun c hc => (hascii c hc).1)
    have h2 : (graphemes s).length = s.length :=
      length_graphemes_plain s
        (fun c hc => plain_of_ascii c (hascii c hc).1 (hascii c hc).2)
    omega
  · intro i hi
    unfold Row.renderCategory
    exact List.getD_eq_default _ _ hi

/-- Witness for C3 on a concrete row under the markup ruleset. -/
theorem C3_highlight_bounds_witness :
    ((Row.fromStr (cs "ab")).highlight {} none false { is_org := true }
        true =
      some (⟨cs "ab", [HlType.None, HlType.None], true, 2⟩, false)) ∧
    ((⟨cs "ab", [HlType.None, HlType.None], true, 2⟩ :
        Row).highlighting.length ≤
      utf8Len (⟨cs "ab", [HlType.None, HlType.None], true, 2⟩ :
        Row).string ∧
    ((∀ c ∈ cs "ab", c.toNat < 128 ∧ c ≠ '\r') →
      (⟨cs "ab", [HlType.None, HlType.None], true, 2⟩ :
          Row).highlighting.length ≤
        (graphemes (⟨cs "ab", [HlType.None, HlType.None], true, 2⟩ :
          Row).string).length) ∧
    (∀ i, (⟨cs "ab", [HlType.None, HlType.None], true, 2⟩ :
        Row).highlighting.length ≤ i →
      Row.renderCategory
        (⟨cs "ab", [HlType.None, HlType.None], true, 2⟩ : Row) i =
        HlType.None)) :=
  ⟨by decide,
    C3_highlight_bounds (cs "ab") {} none false { is_org := true } true
      ⟨cs "ab", [HlType.None, HlType.None], true, 2⟩ false (by decide)⟩

end Odo
